import Mathlib

/-!
Verification of `keccak256.cpp` (ethsold): a Keccak-256 front end, an
address deriver, a placeholder signature verifier, and a Merkle tree that
combines nodes by concatenating their textual hex encodings.

Modelling conventions.
C++ `std::string` and `std::vector<unsigned char>` are both byte sequences and
are modelled as `List Nat`.  The external digest primitive `EVP_sha3_256`
(OpenSSL) is not part of this repository; every definition is parameterised
over it as a function `keccak : Bytes → Bytes`, and the contract from the spec
(a fixed 32-byte digest for every input) is taken as a hypothesis where a
statement needs it.  The `while` loop of `MerkleTree::buildTree` is modelled
with an explicit iteration bound of `level.length`; `buildLevels_loop` proves
that the bounded form satisfies the loop's exact recurrence, so the bound is
not a semantic restriction.
-/

/-- A byte string: a list of byte values. -/
abbrev Bytes : Type := List Nat

/-- One lowercase hexadecimal digit as its ASCII code, as produced by
`std::hex` on `(int)byte`: `0`-`9` are codes 48-57, `a`-`f` are codes 97-102. -/
def hexDigitChar (n : Nat) : Nat :=
  if n < 10 then 48 + n else 87 + n

/-- The two hex digits `std::hex << std::setw(2) << std::setfill('0')` prints
for one byte value (bytes are below 256, so exactly two digits appear). -/
def byteToHex (b : Nat) : Bytes :=
  [hexDigitChar (b / 16), hexDigitChar (b % 16)]

/-- `Keccak256::bytesToHex`: the ASCII codes of `0` and `x` (48 and 120)
followed by two lowercase hex digits per byte. -/
def bytesToHex (bs : Bytes) : Bytes :=
  [48, 120] ++ bs.flatMap byteToHex

/-- `Keccak256::hash`: the hex encoding of the digest of the input
(`Keccak256::hashToBytes` is the external `keccak` itself). -/
def Keccak256.hash (keccak : Bytes → Bytes) (input : Bytes) : Bytes :=
  bytesToHex (keccak input)

/-- `Keccak256::publicKeyToAddress`: the codes of `0x` followed by the hex
encoding of the bytes from index `hash.size() - 20` to the end of the digest. -/
def publicKeyToAddress (keccak : Bytes → Bytes) (publicKey : Bytes) : Bytes :=
  [48, 120] ++ ((keccak publicKey).drop ((keccak publicKey).length - 20)).flatMap byteToHex

/-- `EthereumCrypto::verifySignature`: computes the message hash, prints two
informational lines to stdout (not modelled), and returns `true`
unconditionally; the source comments call it a placeholder. -/
def verifySignature (keccak : Bytes → Bytes)
    (message _signature _publicKey : Bytes) : Bool :=
  let _messageHash := keccak message
  true

/-- One pass of the pairing loop in `MerkleTree::buildTree` (the `for` over
`i += 2`): adjacent pairs `(2k, 2k+1)` are combined left to right by hashing
the concatenation of the two stored strings; a trailing unpaired element is
concatenated with itself. -/
def pairUp (keccak : Bytes → Bytes) : List Bytes → List Bytes
  | [] => []
  | [x] => [Keccak256.hash keccak (x ++ x)]
  | x :: y :: rest => Keccak256.hash keccak (x ++ y) :: pairUp keccak rest

/-- The `while (levels.back().size() > 1)` loop of `MerkleTree::buildTree`,
returning the list of levels it pushes, starting from the given level.  The
iteration bound `fuel` is instantiated with `level.length` in `buildLevels`,
which is enough for the loop to reach its exit condition
(`buildLevels_loop` below). -/
def buildLevelsAux (keccak : Bytes → Bytes) : Nat → List Bytes → List (List Bytes)
  | 0, level => [level]
  | fuel + 1, level =>
    if 1 < level.length then level :: buildLevelsAux keccak fuel (pairUp keccak level)
    else [level]

/-- The levels `MerkleTree::buildTree` pushes when the level stack starts with
`level` on top: `level` itself, then each paired-up successor until a level
has at most one element. -/
def buildLevels (keccak : Bytes → Bytes) (level : List Bytes) : List (List Bytes) :=
  buildLevelsAux keccak level.length level

/-- The `MerkleTree` object state: its two private fields. -/
structure MerkleTree where
  leaves : List Bytes
  levels : List (List Bytes)
deriving DecidableEq

/-- `MerkleTree::buildTree` as a state transformer: it pushes `leaves` as a new
level and then runs the pairing loop, which only ever inspects `levels.back()`;
the net effect on the `levels` field is appending the freshly built stack. -/
def MerkleTree.buildTree (keccak : Bytes → Bytes) (t : MerkleTree) : MerkleTree :=
  { t with levels := t.levels ++ buildLevels keccak t.leaves }

/-- The `MerkleTree` constructor: hashes every item into `leaves`, in input
order, then calls `buildTree` on the initially empty level stack. -/
def MerkleTree.ofData (keccak : Bytes → Bytes) (data : List Bytes) : MerkleTree :=
  MerkleTree.buildTree keccak ⟨data.map (Keccak256.hash keccak), []⟩

/-- `MerkleTree::getRoot`: `levels.back()[0]`.  The element read is modelled as
`head?`, with `none` standing for the out-of-bounds access on an empty back
level; `getLastD []` stands for `levels.back()` (after construction `levels`
is never empty). -/
def MerkleTree.getRoot (t : MerkleTree) : Option Bytes :=
  (t.levels.getLastD []).head?

/-- `MerkleTree::printTree` as a state transformer: the method is declared
`const` (it only writes text to stdout), so its effect on the object state is
the identity. -/
def MerkleTree.printTree (t : MerkleTree) : MerkleTree :=
  t

/-- The level stack of the tree built from `data`, oldest (leaf) level first. -/
def treeLevels (keccak : Bytes → Bytes) (data : List Bytes) : List (List Bytes) :=
  (MerkleTree.ofData keccak data).levels

/-- The root read off the tree built from `data`. -/
def treeRoot (keccak : Bytes → Bytes) (data : List Bytes) : Option Bytes :=
  (MerkleTree.ofData keccak data).getRoot

/-- A concrete stand-in for the external digest primitive, used to instantiate
theorems at concrete inputs: it satisfies the provider contract (fixed 32-byte
output made of byte values). -/
def keccakDemo : Bytes → Bytes :=
  fun s => List.replicate 32 (s.sum % 256)

theorem pairUp_length (keccak : Bytes → Bytes) :
    ∀ l : List Bytes, (pairUp keccak l).length = (l.length + 1) / 2
  | [] => rfl
  | [x] => by simp [pairUp]
  | _ :: _ :: rest => by
    simp only [pairUp, List.length_cons, pairUp_length keccak rest]
    omega

theorem pairUp_ne_nil (keccak : Bytes → Bytes) (l : List Bytes) (h : l ≠ []) :
    pairUp keccak l ≠ [] := by
  intro hc
  have h1 : (pairUp keccak l).length = 0 := by rw [hc]; rfl
  rw [pairUp_length] at h1
  have h2 : l.length ≠ 0 := fun h0 => h (List.length_eq_zero.mp h0)
  omega

/-- The iteration bound is irrelevant once it is at least the level's length. -/
theorem buildLevelsAux_fuel (keccak : Bytes → Bytes) :
    ∀ (fuel₁ : Nat), ∀ (fuel₂ : Nat) (level : List Bytes),
      level.length ≤ fuel₁ → level.length ≤ fuel₂ →
      buildLevelsAux keccak fuel₁ level = buildLevelsAux keccak fuel₂ level := by
  intro fuel₁
  induction fuel₁ with
  | zero =>
    intro fuel₂ level h₁ h₂
    have h0 : level.length = 0 := Nat.le_zero.mp h₁
    have hlt : ¬ 1 < level.length := by omega
    cases fuel₂ with
    | zero => rfl
    | succ g => simp [buildLevelsAux, if_neg hlt]
  | succ f ih =>
    intro fuel₂ level h₁ h₂
    by_cases hlt : 1 < level.length
    · cases fuel₂ with
      | zero => exact absurd (Nat.le_zero.mp h₂) (by omega)
      | succ g =>
        have hp : (pairUp keccak level).length = (level.length + 1) / 2 :=
          pairUp_length keccak level
        simp only [buildLevelsAux, if_pos hlt]
        rw [ih g (pairUp keccak level) (by omega) (by omega)]
    · cases fuel₂ with
      | zero => simp [buildLevelsAux, if_neg hlt]
      | succ g => simp [buildLevelsAux, if_neg hlt]

/-- The bounded loop satisfies the exact recurrence of the
`while (levels.back().size() > 1)` loop, so instantiating the bound with the
level's length is not a semantic restriction. -/
theorem buildLevels_loop (keccak : Bytes → Bytes) (level : List Bytes) :
    buildLevels keccak level =
      if 1 < level.length then level :: buildLevels keccak (pairUp keccak level)
      else [level] := by
  by_cases hlt : 1 < level.length
  · obtain ⟨f, hf⟩ : ∃ f, level.length = f + 1 := ⟨level.length - 1, by omega⟩
    rw [if_pos hlt]
    unfold buildLevels
    rw [hf]
    simp only [buildLevelsAux, if_pos hlt]
    congr 1
    exact buildLevelsAux_fuel keccak f (pairUp keccak level).length (pairUp keccak level)
      (by have := pairUp_length keccak level; omega) (le_refl _)
  · rw [if_neg hlt]
    unfold buildLevels
    cases hn : level.length with
    | zero => rfl
    | succ m =>
      have hm : m = 0 := by omega
      subst hm
      simp [buildLevelsAux, if_neg hlt]

theorem buildLevelsAux_head (keccak : Bytes → Bytes) (fuel : Nat) (level : List Bytes) :
    (buildLevelsAux keccak fuel level).head? = some level := by
  cases fuel with
  | zero => rfl
  | succ f =>
    by_cases hlt : 1 < level.length
    · simp [buildLevelsAux, if_pos hlt]
    · simp [buildLevelsAux, if_neg hlt]

theorem buildLevelsAux_ne_nil (keccak : Bytes → Bytes) (fuel : Nat) (level : List Bytes) :
    buildLevelsAux keccak fuel level ≠ [] := by
  intro hc
  have h := buildLevelsAux_head keccak fuel level
  rw [hc] at h
  simp at h

theorem buildLevelsAux_getElem_zero (keccak : Bytes → Bytes) (fuel : Nat) (level : List Bytes) :
    (buildLevelsAux keccak fuel level)[0]? = some level := by
  cases haux : buildLevelsAux keccak fuel level with
  | nil => exact absurd haux (buildLevelsAux_ne_nil keccak fuel level)
  | cons a t =>
    have h := buildLevelsAux_head keccak fuel level
    rw [haux] at h
    simp at h
    subst h
    simp

/-- Consecutive levels of the bounded loop are related by one pairing pass. -/
theorem buildLevelsAux_chain (keccak : Bytes → Bytes) :
    ∀ (fuel : Nat) (level : List Bytes) (i : Nat) (cur nxt : List Bytes),
      (buildLevelsAux keccak fuel level)[i]? = some cur →
      (buildLevelsAux keccak fuel level)[i + 1]? = some nxt →
      nxt = pairUp keccak cur := by
  intro fuel
  induction fuel with
  | zero =>
    intro level i cur nxt h1 h2
    simp [buildLevelsAux] at h2
  | succ f ih =>
    intro level i cur nxt h1 h2
    by_cases hlt : 1 < level.length
    · simp only [buildLevelsAux, if_pos hlt] at h1 h2
      cases i with
      | zero =>
        have hcur : cur = level := by
          rw [List.getElem?_cons_zero] at h1
          exact (Option.some_inj.mp h1).symm
        have h2' : (buildLevelsAux keccak f (pairUp keccak level))[0]? = some nxt := by
          rw [List.getElem?_cons_succ] at h2
          exact h2
        have h0 := buildLevelsAux_getElem_zero keccak f (pairUp keccak level)
        rw [h0] at h2'
        rw [hcur]
        exact (Option.some_inj.mp h2').symm
      | succ j =>
        rw [List.getElem?_cons_succ] at h1 h2
        exact ih (pairUp keccak level) j cur nxt h1 h2
    · simp only [buildLevelsAux, if_neg hlt] at h2
      simp at h2

/-- Every non-final level of the bounded loop has more than one element: the
loop exits as soon as the newest level's size is at most one. -/
theorem buildLevelsAux_proper (keccak : Bytes → Bytes) :
    ∀ (fuel : Nat) (level : List Bytes) (i : Nat) (lv : List Bytes),
      i + 1 < (buildLevelsAux keccak fuel level).length →
      (buildLevelsAux keccak fuel level)[i]? = some lv →
      1 < lv.length := by
  intro fuel
  induction fuel with
  | zero =>
    intro level i lv hlen _
    simp [buildLevelsAux] at hlen
  | succ f ih =>
    intro level i lv hlen hget
    by_cases hlt : 1 < level.length
    · simp only [buildLevelsAux, if_pos hlt] at hlen hget
      cases i with
      | zero =>
        rw [List.getElem?_cons_zero] at hget
        rw [← Option.some_inj.mp hget]
        exact hlt
      | succ j =>
        have hlen' : j + 1 < (buildLevelsAux keccak f (pairUp keccak level)).length := by
          simp only [List.length_cons] at hlen
          omega
        rw [List.getElem?_cons_succ] at hget
        exact ih (pairUp keccak level) j lv hlen' hget
    · simp only [buildLevelsAux, if_neg hlt, List.length_singleton] at hlen
      omega

/-- With enough fuel, the loop runs until a nonempty start level is reduced to
a single digest. -/
theorem buildLevelsAux_getLast (keccak : Bytes → Bytes) :
    ∀ (fuel : Nat) (level : List Bytes), level ≠ [] → level.length ≤ fuel →
      ∀ lv, (buildLevelsAux keccak fuel level).getLast? = some lv → lv.length = 1 := by
  intro fuel
  induction fuel with
  | zero =>
    intro level hne hle lv _
    exact absurd (List.length_eq_zero.mp (Nat.le_zero.mp hle)) hne
  | succ f ih =>
    intro level hne hle lv h
    by_cases hlt : 1 < level.length
    · simp only [buildLevelsAux, if_pos hlt] at h
      have hpne : pairUp keccak level ≠ [] := pairUp_ne_nil keccak level hne
      have hple : (pairUp keccak level).length ≤ f := by
        have := pairUp_length keccak level
        omega
      cases haux : buildLevelsAux keccak f (pairUp keccak level) with
      | nil => exact absurd haux (buildLevelsAux_ne_nil keccak f _)
      | cons a t =>
        rw [haux, List.getLast?_cons_cons] at h
        exact ih (pairUp keccak level) hpne hple lv (by rw [haux]; exact h)
    · simp only [buildLevelsAux, if_neg hlt] at h
      have h1 : lv = level := by simpa using h.symm
      have h2 : level.length ≠ 0 := fun h0 => hne (List.length_eq_zero.mp h0)
      subst h1
      omega

/-- The node at position `k` of a paired-up level combines the elements at
positions `2k` and `2k + 1` of the level below, in that order. -/
theorem pairUp_getElem (keccak : Bytes → Bytes) :
    ∀ (l : List Bytes) (k : Nat) (x y : Bytes),
      l[2 * k]? = some x → l[2 * k + 1]? = some y →
      (pairUp keccak l)[k]? = some (Keccak256.hash keccak (x ++ y))
  | [], _, _, _, hx, _ => by simp at hx
  | [a], k, x, y, hx, hy => by
    cases k with
    | zero => simp at hy
    | succ j =>
      rw [show 2 * (j + 1) = 2 * j + 1 + 1 by ring] at hx
      simp at hx
  | a :: b :: rest, k, x, y, hx, hy => by
    cases k with
    | zero =>
      rw [List.getElem?_cons_zero] at hx
      rw [show 2 * 0 + 1 = 0 + 1 by ring, List.getElem?_cons_succ,
        List.getElem?_cons_zero] at hy
      rw [← Option.some_inj.mp hx, ← Option.some_inj.mp hy,
        show pairUp keccak (a :: b :: rest)
          = Keccak256.hash keccak (a ++ b) :: pairUp keccak rest from rfl,
        List.getElem?_cons_zero]
    | succ j =>
      have hx' : rest[2 * j]? = some x := by
        rw [show 2 * (j + 1) = 2 * j + 1 + 1 by ring, List.getElem?_cons_succ,
          List.getElem?_cons_succ] at hx
        exact hx
      have hy' : rest[2 * j + 1]? = some y := by
        rw [show 2 * (j + 1) + 1 = 2 * j + 1 + 1 + 1 by ring, List.getElem?_cons_succ,
          List.getElem?_cons_succ] at hy
        exact hy
      rw [show pairUp keccak (a :: b :: rest)
            = Keccak256.hash keccak (a ++ b) :: pairUp keccak rest from rfl,
        List.getElem?_cons_succ]
      exact pairUp_getElem keccak rest j x y hx' hy'

/-- Every element of a paired-up level is a hash output. -/
theorem pairUp_mem (keccak : Bytes → Bytes) :
    ∀ (l : List Bytes) (x : Bytes), x ∈ pairUp keccak l →
      ∃ s, x = Keccak256.hash keccak s
  | [], x, hx => by simp [pairUp] at hx
  | [a], x, hx => by
    simp only [pairUp, List.mem_singleton] at hx
    exact ⟨a ++ a, hx⟩
  | a :: b :: rest, x, hx => by
    simp only [pairUp, List.mem_cons] at hx
    rcases hx with h | h
    · exact ⟨a ++ b, h⟩
    · exact pairUp_mem keccak rest x h

/-- Every element of every level the loop builds either comes from the start
level or is a hash output. -/
theorem buildLevelsAux_mem (keccak : Bytes → Bytes) :
    ∀ (fuel : Nat) (level lv : List Bytes) (x : Bytes),
      lv ∈ buildLevelsAux keccak fuel level → x ∈ lv →
      x ∈ level ∨ ∃ s, x = Keccak256.hash keccak s := by
  intro fuel
  induction fuel with
  | zero =>
    intro level lv x hlv hx
    simp only [buildLevelsAux, List.mem_singleton] at hlv
    subst hlv
    exact Or.inl hx
  | succ f ih =>
    intro level lv x hlv hx
    by_cases hlt : 1 < level.length
    · simp only [buildLevelsAux, if_pos hlt, List.mem_cons] at hlv
      rcases hlv with h | h
      · subst h; exact Or.inl hx
      · rcases ih (pairUp keccak level) lv x h hx with h2 | h2
        · exact Or.inr (pairUp_mem keccak level x h2)
        · exact Or.inr h2
    · simp only [buildLevelsAux, if_neg hlt, List.mem_singleton] at hlv
      subst hlv
      exact Or.inl hx

/-- On a level with an odd number of elements, the last node of the paired-up
level hashes the concatenation of the last element with itself. -/
theorem pairUp_getLast_odd (keccak : Bytes → Bytes) :
    ∀ (l : List Bytes) (z : Bytes), l.getLast? = some z → l.length % 2 = 1 →
      (pairUp keccak l).getLast? = some (Keccak256.hash keccak (z ++ z))
  | [], z, hz, _ => by simp at hz
  | [a], z, hz, _ => by
    simp only [List.getLast?_singleton] at hz
    rw [← Option.some_inj.mp hz]
    rfl
  | a :: b :: rest, z, hz, hodd => by
    have hlen : (a :: b :: rest).length = rest.length + 2 := rfl
    rw [hlen] at hodd
    have hro : rest.length % 2 = 1 := by omega
    have hrne : rest ≠ [] := by
      intro h0
      rw [h0] at hro
      simp at hro
    have hz' : rest.getLast? = some z := by
      cases rest with
      | nil => exact absurd rfl hrne
      | cons r rs => rw [List.getLast?_cons_cons, List.getLast?_cons_cons] at hz; exact hz
    have hstep : pairUp keccak (a :: b :: rest)
        = Keccak256.hash keccak (a ++ b) :: pairUp keccak rest := rfl
    rw [hstep]
    cases hp : pairUp keccak rest with
    | nil => exact absurd hp (pairUp_ne_nil keccak rest hrne)
    | cons q qs =>
      rw [List.getLast?_cons_cons]
      rw [← hp]
      exact pairUp_getLast_odd keccak rest z hz' hro

/-- Lowercase hex digit codes are digits `0`-`9` or letters `a`-`f`. -/
theorem hexDigitChar_range (n : Nat) (h : n < 16) :
    (48 ≤ hexDigitChar n ∧ hexDigitChar n ≤ 57) ∨
      (97 ≤ hexDigitChar n ∧ hexDigitChar n ≤ 102) := by
  unfold hexDigitChar
  split <;> omega

theorem flatMap_byteToHex_length :
    ∀ bs : Bytes, (bs.flatMap byteToHex).length = 2 * bs.length
  | [] => rfl
  | b :: bs => by
    simp only [List.flatMap_cons, List.length_append, List.length_cons,
      flatMap_byteToHex_length bs, byteToHex, List.length_nil]
    omega

/-- Characters of the hex body of a byte string whose bytes are below 256. -/
theorem flatMap_byteToHex_chars (bs : Bytes) (hb : ∀ b ∈ bs, b < 256) :
    ∀ c ∈ bs.flatMap byteToHex, (48 ≤ c ∧ c ≤ 57) ∨ (97 ≤ c ∧ c ≤ 102) := by
  intro c hc
  rw [List.mem_flatMap] at hc
  obtain ⟨b, hbs, hcb⟩ := hc
  have hblt : b < 256 := hb b hbs
  simp only [byteToHex, List.mem_cons, List.mem_singleton] at hcb
  rcases hcb with h | h | h
  · subst h; exact hexDigitChar_range (b / 16) (by omega)
  · subst h; exact hexDigitChar_range (b % 16) (by omega)
  · exact absurd h (by simp)

/-- The built tree's level stack is the bounded loop started on the leaf level. -/
theorem treeLevels_def (keccak : Bytes → Bytes) (data : List Bytes) :
    treeLevels keccak data =
      buildLevelsAux keccak (data.map (Keccak256.hash keccak)).length
        (data.map (Keccak256.hash keccak)) := rfl

/-- Every stored string in the built tree is the hex encoding of a digest. -/
theorem treeLevels_mem_form (keccak : Bytes → Bytes) (data : List Bytes)
    (lv : List Bytes) (hlv : lv ∈ treeLevels keccak data) (x : Bytes) (hx : x ∈ lv) :
    ∃ s, x = bytesToHex (keccak s) := by
  rw [treeLevels_def] at hlv
  rcases buildLevelsAux_mem keccak _ _ lv x hlv hx with hmem | ⟨s, hs⟩
  · rcases List.mem_map.mp hmem with ⟨item, _, hxe⟩
    exact ⟨item, hxe.symm⟩
  · exact ⟨s, hs⟩

/-- For nonempty input the built tree ends in a level holding one digest. -/
theorem treeLevels_getLast (keccak : Bytes → Bytes) (data : List Bytes)
    (hne : data ≠ []) :
    ∃ lv, (treeLevels keccak data).getLast? = some lv ∧ lv.length = 1 := by
  have hlne : data.map (Keccak256.hash keccak) ≠ [] := by
    intro h0
    exact hne (List.map_eq_nil_iff.mp h0)
  rw [treeLevels_def]
  have hgl := List.getLast?_eq_getLast
    (buildLevelsAux keccak (data.map (Keccak256.hash keccak)).length
      (data.map (Keccak256.hash keccak)))
    (buildLevelsAux_ne_nil keccak _ _)
  exact ⟨_, hgl, buildLevelsAux_getLast keccak _ _ hlne (le_refl _) _ hgl⟩

/-- C1: for every pair of consecutive levels of the built tree, the node at
position `k` of the upper level is the hash of the concatenation of the stored
strings at positions `2k` and `2k + 1` of the lower level; every stored string
is the textual hex representation of a digest, carrying the literal `0x`
prefix (ASCII codes 48, 120), and its hex body uses only the lowercase digit
codes whenever the digest provider yields byte values. -/
theorem claim_C1 (keccak : Bytes → Bytes) (data : List Bytes) :
    (∀ i k cur nxt x y,
      (treeLevels keccak data)[i]? = some cur →
      (treeLevels keccak data)[i + 1]? = some nxt →
      cur[2 * k]? = some x → cur[2 * k + 1]? = some y →
      nxt[k]? = some (Keccak256.hash keccak (x ++ y))) ∧
    (∀ lv ∈ treeLevels keccak data, ∀ x ∈ lv,
      (∃ s, x = bytesToHex (keccak s)) ∧ x.take 2 = [48, 120]) ∧
    ((∀ s b, b ∈ keccak s → b < 256) →
      ∀ lv ∈ treeLevels keccak data, ∀ x ∈ lv, ∀ c ∈ x.drop 2,
        (48 ≤ c ∧ c ≤ 57) ∨ (97 ≤ c ∧ c ≤ 102)) := by
  refine ⟨?_, ?_, ?_⟩
  · intro i k cur nxt x y hcur hnxt hx hy
    rw [treeLevels_def] at hcur hnxt
    rw [buildLevelsAux_chain keccak _ _ i cur nxt hcur hnxt]
    exact pairUp_getElem keccak cur k x y hx hy
  · intro lv hlv x hx
    obtain ⟨s, hs⟩ := treeLevels_mem_form keccak data lv hlv x hx
    subst hs
    exact ⟨⟨s, rfl⟩, rfl⟩
  · intro hb lv hlv x hx c hc
    obtain ⟨s, hs⟩ := treeLevels_mem_form keccak data lv hlv x hx
    subst hs
    exact flatMap_byteToHex_chars (keccak s) (fun b hmem => hb s b hmem) c hc

/-- C2: the leaf level of the built tree has as many digests as there are input
items, each level above has size `(size below + 1) / 2` (the ceiling of half),
and for nonempty input the final level holds exactly one digest. -/
theorem claim_C2 (keccak : Bytes → Bytes) (data : List Bytes) :
    (treeLevels keccak data)[0]? = some (data.map (Keccak256.hash keccak)) ∧
    (data.map (Keccak256.hash keccak)).length = data.length ∧
    (∀ i cur nxt,
      (treeLevels keccak data)[i]? = some cur →
      (treeLevels keccak data)[i + 1]? = some nxt →
      nxt.length = (cur.length + 1) / 2) ∧
    (data ≠ [] → ∃ lv, (treeLevels keccak data).getLast? = some lv ∧ lv.length = 1) := by
  refine ⟨?_, List.length_map _ _, ?_, treeLevels_getLast keccak data⟩
  · rw [treeLevels_def]
    exact buildLevelsAux_getElem_zero keccak _ _
  · intro i cur nxt hcur hnxt
    rw [treeLevels_def] at hcur hnxt
    rw [buildLevelsAux_chain keccak _ _ i cur nxt hcur hnxt]
    exact pairUp_length keccak cur

/-- C3: on a level with an odd number of elements the trailing unpaired element
is combined with itself, and for a three-item input the built tree consists of
the three leaf hashes, the level `[hash(hA ++ hB), hash(hC ++ hC)]`, and the
root `hash(level1[0] ++ level1[1])`, all concatenations acting on the stored
hex strings. -/
theorem claim_C3 (keccak : Bytes → Bytes) (a b c : Bytes) :
    (∀ (l : List Bytes) (z : Bytes), l.getLast? = some z → l.length % 2 = 1 →
      (pairUp keccak l).getLast? = some (Keccak256.hash keccak (z ++ z))) ∧
    treeLevels keccak [a, b, c] =
      [[Keccak256.hash keccak a, Keccak256.hash keccak b, Keccak256.hash keccak c],
       [Keccak256.hash keccak (Keccak256.hash keccak a ++ Keccak256.hash keccak b),
        Keccak256.hash keccak (Keccak256.hash keccak c ++ Keccak256.hash keccak c)],
       [Keccak256.hash keccak
          (Keccak256.hash keccak (Keccak256.hash keccak a ++ Keccak256.hash keccak b) ++
           Keccak256.hash keccak (Keccak256.hash keccak c ++ Keccak256.hash keccak c))]] ∧
    treeRoot keccak [a, b, c] =
      some (Keccak256.hash keccak
        (Keccak256.hash keccak (Keccak256.hash keccak a ++ Keccak256.hash keccak b) ++
         Keccak256.hash keccak (Keccak256.hash keccak c ++ Keccak256.hash keccak c))) :=
  ⟨pairUp_getLast_odd keccak, rfl, rfl⟩

/-- C4: level 0 of the built tree hashes each input item in order, one leaf per
item, the hash applied to the raw item bytes with nothing prepended. -/
theorem claim_C4 (keccak : Bytes → Bytes) (data : List Bytes) :
    (treeLevels keccak data)[0]? = some (data.map (Keccak256.hash keccak)) ∧
    (data.map (Keccak256.hash keccak)).length = data.length ∧
    (∀ i : Nat, (data.map (Keccak256.hash keccak))[i]?
      = (data[i]?).map fun item => bytesToHex (keccak item)) := by
  refine ⟨?_, List.length_map _ _, ?_⟩
  · rw [treeLevels_def]
    exact buildLevelsAux_getElem_zero keccak _ _
  · intro i
    exact List.getElem?_map _ _ _

/-- C5: the pairing pass strictly shrinks a level with more than one element,
so the loop terminates: for empty input the level stack is the single empty
level (the loop body never runs), for nonempty input the final level holds
exactly one digest, and every non-final level has more than one element, so
the loop stops exactly when a level of size one appears. -/
theorem claim_C5 (keccak : Bytes → Bytes) (data : List Bytes) :
    (∀ l : List Bytes, 1 < l.length → (pairUp keccak l).length < l.length) ∧
    (data = [] → treeLevels keccak data = [[]]) ∧
    (data ≠ [] → ∃ lv, (treeLevels keccak data).getLast? = some lv ∧ lv.length = 1) ∧
    (∀ i lv, i + 1 < (treeLevels keccak data).length →
      (treeLevels keccak data)[i]? = some lv → 1 < lv.length) := by
  refine ⟨?_, ?_, treeLevels_getLast keccak data, ?_⟩
  · intro l hl
    have := pairUp_length keccak l
    omega
  · intro h
    subst h
    rfl
  · intro i lv hlen hget
    rw [treeLevels_def] at hlen hget
    exact buildLevelsAux_proper keccak _ _ i lv hlen hget

/-- C6: for a single-item input the tree has exactly one level, the leaf level,
and the root is the leaf hash of that item; no pairing pass runs. -/
theorem claim_C6 (keccak : Bytes → Bytes) (a : Bytes) :
    treeLevels keccak [a] = [[Keccak256.hash keccak a]] ∧
    treeRoot keccak [a] = some (Keccak256.hash keccak a) :=
  ⟨rfl, rfl⟩

/-- C7: under the digest provider contract (32-byte digests), address
derivation hex-encodes exactly the last 20 digest bytes after the literal
`0x` (codes 48, 120): 42 characters in total, 40 after the two-character
marker, for every public-key input. -/
theorem claim_C7 (keccak : Bytes → Bytes) (hk : ∀ s, (keccak s).length = 32)
    (pk : Bytes) :
    publicKeyToAddress keccak pk
      = [48, 120] ++ ((keccak pk).drop 12).flatMap byteToHex ∧
    ((keccak pk).drop 12).length = 20 ∧
    (publicKeyToAddress keccak pk).length = 42 ∧
    (publicKeyToAddress keccak pk).take 2 = [48, 120] := by
  have h1 : publicKeyToAddress keccak pk
      = [48, 120] ++ ((keccak pk).drop 12).flatMap byteToHex := by
    unfold publicKeyToAddress
    rw [hk pk]
  have h2 : ((keccak pk).drop 12).length = 20 := by
    rw [List.length_drop, hk pk]
  refine ⟨h1, h2, ?_, ?_⟩
  · rw [h1]
    simp only [List.length_append, flatMap_byteToHex_length, h2]
    rfl
  · rw [h1]
    rfl

/-- C7 witness: the theorem instantiated at the concrete stand-in provider and
a concrete three-byte input. -/
theorem claim_C7_witness :
    publicKeyToAddress keccakDemo [1, 2, 3]
      = [48, 120] ++ ((keccakDemo [1, 2, 3]).drop 12).flatMap byteToHex ∧
    ((keccakDemo [1, 2, 3]).drop 12).length = 20 ∧
    (publicKeyToAddress keccakDemo [1, 2, 3]).length = 42 ∧
    (publicKeyToAddress keccakDemo [1, 2, 3]).take 2 = [48, 120] :=
  claim_C7 keccakDemo (fun s => List.length_replicate 32 (s.sum % 256)) [1, 2, 3]

/-- C8 counterexample: `buildTree` is a public member function and calling it
on an already-constructed tree changes the stored levels, so a publicly
invokable mutation operation does exist post-construction. -/
theorem claim_C8_counterexample :
    (MerkleTree.buildTree keccakDemo (MerkleTree.ofData keccakDemo [[0]])).levels ≠
      (MerkleTree.ofData keccakDemo [[0]]).levels := by
  decide

/-- C8 amended: the `const` operations (root accessor, printing) leave the
stored leaves and levels unchanged, but the public `buildTree` routine remains
invokable post-construction and mutates the object: it leaves `leaves` intact
and appends a freshly rebuilt level stack to `levels`, strictly growing it. -/
theorem claim_C8 (keccak : Bytes → Bytes) (t : MerkleTree) :
    MerkleTree.printTree t = t ∧
    (MerkleTree.buildTree keccak t).leaves = t.leaves ∧
    (MerkleTree.buildTree keccak t).levels = t.levels ++ buildLevels keccak t.leaves ∧
    t.levels.length < (MerkleTree.buildTree keccak t).levels.length := by
  refine ⟨rfl, rfl, rfl, ?_⟩
  show t.levels.length < (t.levels ++ buildLevels keccak t.leaves).length
  rw [List.length_append]
  have hne := buildLevelsAux_ne_nil keccak t.leaves.length t.leaves
  have hlen : (buildLevels keccak t.leaves).length ≠ 0 := by
    intro h0
    exact hne (List.length_eq_zero.mp h0)
  omega

/-- C9: for nonempty input the root read `levels.back()[0]` is in bounds (the
level stack and its final level are nonempty), while for empty input the built
stack is exactly one empty level and the element read is out of bounds
(modelled as `none`). -/
theorem claim_C9 (keccak : Bytes → Bytes) (data : List Bytes) :
    (data ≠ [] → ∃ r, treeRoot keccak data = some r) ∧
    (data = [] → treeLevels keccak data = [[]] ∧ treeRoot keccak data = none) := by
  constructor
  · intro hne
    obtain ⟨lv, hlast, hlen⟩ := treeLevels_getLast keccak data hne
    obtain ⟨r, hr⟩ := List.length_eq_one.mp hlen
    refine ⟨r, ?_⟩
    show ((treeLevels keccak data).getLastD []).head? = some r
    rw [List.getLastD_eq_getLast?, hlast, hr]
    rfl
  · intro h
    subst h
    exact ⟨rfl, rfl⟩

/-- C10: the signature-verification routine returns `true` for every message,
signature and public key; it performs no cryptographic check. -/
theorem claim_C10 (keccak : Bytes → Bytes) (message sig pk : Bytes) :
    verifySignature keccak message sig pk = true :=
  rfl
